import Mathlib

/-!
Shallow embedding of the gen-from CLI scaffolding tool: the placeholder
substitution and file materialization pipeline.

Sources embedded here:
- the delimited-placeholder per-file rewriter of src/cli.ts (processFile,
  isBinaryFile, the KEYWORDS special case);
- the current pipeline embedded in the repository documentation
  (processFile with structured package.json rewriting, processFiles with a
  read-only stats pass, collectInputs, selectTemplate).

Strings are modeled as Lean String (a packed List Char); JavaScript string
operations that the code uses (includes, global literal-regex replace,
global match counting, split, trim, toLowerCase, endsWith, slice) are
implemented below on character lists so that every definition evaluates by
kernel reduction. JavaScript object iteration order is modeled by list
order; maps from placeholder keys to values are association lists.
-/

/-- JS helper: startsWithL pat text decides whether pat is an initial
segment of text. -/
def startsWithL : List Char → List Char → Bool
  | [], _ => true
  | _ :: _, [] => false
  | p :: ps, c :: cs => p == c && startsWithL ps cs

/-- JS String.prototype.includes for a literal pattern: some position of
text starts with pat. -/
def containsL (text pat : List Char) : Bool :=
  match text with
  | [] => startsWithL pat []
  | _ :: cs => startsWithL pat text || containsL cs pat

/-- One replacement sweep of a nonempty literal pattern, left to right and
non-overlapping, exactly as a global escaped-literal RegExp replace behaves.
The fuel argument makes the recursion structural; fuel = text length always
suffices because every step consumes at least one character. -/
def replFuel (pat repl : List Char) : Nat → List Char → List Char
  | 0, text => text
  | _ + 1, [] => []
  | fuel + 1, c :: cs =>
    if startsWithL pat (c :: cs) then
      repl ++ replFuel pat repl fuel (cs.drop (pat.length - 1))
    else
      c :: replFuel pat repl fuel cs

/-- Global replacement of the empty pattern: JS inserts the replacement at
every gap ("ab".replace of the empty global pattern by "X" is "XaXbX"). -/
def emptyPatRepl (repl : List Char) : List Char → List Char
  | [] => repl
  | c :: cs => repl ++ c :: emptyPatRepl repl cs

/-- JS content.replace(new RegExp(escapedLiteral, g), repl) on char lists. -/
def replaceAllL (text pat repl : List Char) : List Char :=
  if pat.isEmpty then emptyPatRepl repl text else replFuel pat repl text.length text

/-- Counting sweep matching replFuel: how many non-overlapping matches a
global literal regex finds, left to right. -/
def countFuel (pat : List Char) : Nat → List Char → Nat
  | 0, _ => 0
  | _ + 1, [] => 0
  | fuel + 1, c :: cs =>
    if startsWithL pat (c :: cs) then
      1 + countFuel pat fuel (cs.drop (pat.length - 1))
    else
      countFuel pat fuel cs

/-- JS content.match(new RegExp(escapedLiteral, g)).length (0 when null);
the empty pattern matches once at every position including the end. -/
def countOccsL (text pat : List Char) : Nat :=
  if pat.isEmpty then text.length + 1 else countFuel pat text.length text

/-- String wrapper for containsL. -/
def containsSub (s pat : String) : Bool := containsL s.data pat.data

/-- String wrapper for replaceAllL. -/
def replaceAllStr (s pat repl : String) : String :=
  String.mk (replaceAllL s.data pat.data repl.data)

/-- String wrapper for countOccsL. -/
def countOccs (s pat : String) : Nat := countOccsL s.data pat.data

/-- JS String.prototype.endsWith for a literal suffix. -/
def endsWithStr (s suffix : String) : Bool :=
  startsWithL suffix.data.reverse s.data.reverse

/-- JS String.prototype.toLowerCase, modeled on the ASCII range. -/
def toLowerStr (s : String) : String := String.mk (s.data.map Char.toLower)

/-- Whitespace recognized by the modeled JS String.prototype.trim. -/
def isJsSpace (c : Char) : Bool :=
  c == ' ' || c == '\t' || c == '\n' || c == '\r' || c == '\x0b' || c == '\x0c'

/-- JS String.prototype.trim. -/
def trimJs (s : String) : String :=
  String.mk (((s.data.dropWhile isJsSpace).reverse.dropWhile isJsSpace).reverse)

/-- JS value.split on a single comma. -/
def splitCommaL : List Char → List (List Char)
  | [] => [[]]
  | c :: cs =>
    match splitCommaL cs with
    | [] => [[c]]
    | h :: t => if c == ',' then [] :: h :: t else (c :: h) :: t

/-- String wrapper for splitCommaL. -/
def splitComma (s : String) : List String := (splitCommaL s.data).map String.mk

/-- Packing the character list of a string gives the string back. -/
theorem stringMkData (s : String) : String.mk s.data = s := by cases s; rfl

/-- The character list of an appended string is the appended lists. -/
theorem stringDataAppend (a b : String) : (a ++ b).data = a.data ++ b.data := by
  cases a; cases b; rfl

/-- The JSON document model the manifest rewriter operates on
(JSON.parse output): strings, integers, booleans, null, arrays, objects
as ordered field lists. -/
inductive Json where
  | str (s : String)
  | num (n : Int)
  | jbool (b : Bool)
  | null
  | arr (elems : List Json)
  | obj (fields : List (String × Json))

mutual
/-- Structural equality of JSON values, used to model the JS Set
SameValueZero comparison on the (string-valued) keyword entries. -/
def Json.beq : Json → Json → Bool
  | .str a, .str b => a == b
  | .num a, .num b => a == b
  | .jbool a, .jbool b => a == b
  | .null, .null => true
  | .arr a, .arr b => Json.beqList a b
  | .obj a, .obj b => Json.beqFields a b
  | _, _ => false
/-- Pointwise Json.beq on element lists. -/
def Json.beqList : List Json → List Json → Bool
  | [], [] => true
  | x :: xs, y :: ys => Json.beq x y && Json.beqList xs ys
  | _, _ => false
/-- Pointwise Json.beq on field lists. -/
def Json.beqFields : List (String × Json) → List (String × Json) → Bool
  | [], [] => true
  | (k, v) :: xs, (l, w) :: ys => k == l && Json.beq v w && Json.beqFields xs ys
  | _, _ => false
end

instance : BEq Json := ⟨Json.beq⟩

/-- JS truthiness of a JSON value: empty string, zero, false and null are
falsy; every array and object is truthy. -/
def jsTruthy : Json → Bool
  | .str s => s != ""
  | .num n => n != 0
  | .jbool b => b
  | .null => false
  | .arr _ => true
  | .obj _ => true

/-- Truthiness of a possibly absent field (undefined is falsy). -/
def jsTruthyOpt : Option Json → Bool
  | some v => jsTruthy v
  | none => false

/-- Property read obj.k: the first binding of the field list, none when the
receiver is not an object or the field is absent. -/
def objGet (j : Json) (k : String) : Option Json :=
  match j with
  | .obj fields => fields.lookup k
  | _ => none

/-- JS property assignment on a field list: overwrite the first binding in
place, or append a fresh binding. -/
def setField (k : String) (v : Json) : List (String × Json) → List (String × Json)
  | [] => [(k, v)]
  | (k2, w) :: rest => if k2 == k then (k, v) :: rest else (k2, w) :: setField k v rest

/-- JS property assignment obj.k = v (identity on non-objects). -/
def objSet (j : Json) (k : String) (v : Json) : Json :=
  match j with
  | .obj fields => .obj (setField k v fields)
  | _ => j

/-- Spread of a JS Set built from a list: keep the first occurrence of each
element, in order. The seen accumulator holds elements already emitted. -/
def jsDedupAux {α : Type} [BEq α] (seen : List α) : List α → List α
  | [] => []
  | x :: xs =>
    if seen.contains x then jsDedupAux seen xs
    else x :: jsDedupAux (x :: seen) xs

/-- The keyword merge core: spread of new Set(l). -/
def jsDedup {α : Type} [BEq α] (l : List α) : List α := jsDedupAux [] l

/-- node path.basename: the segment after the last slash. -/
def basenameStr (p : String) : String :=
  String.mk ((p.data.reverse.takeWhile (fun c => c != '/')).reverse)

/-- node path.extname applied to a basename: the suffix from the last dot,
empty when there is no dot or the only dot leads a dotfile. -/
def extnameOf (b : String) : String :=
  let d := b.data
  let tailLen := (d.reverse.takeWhile (fun c => c != '.')).length
  if tailLen == d.length then ""
  else if d.length == tailLen + 1 then ""
  else String.mk (d.drop (d.length - tailLen - 1))

/-- node path.extname of a full path. -/
def extnameStr (p : String) : String := extnameOf (basenameStr p)

/-- The fixed binary extension list of isBinaryFile. -/
def binaryExtensions : List String :=
  [".png", ".jpg", ".jpeg", ".gif", ".ico", ".svg",
   ".pdf", ".zip", ".tar", ".gz", ".7z",
   ".exe", ".dll", ".so", ".dylib",
   ".woff", ".woff2", ".ttf", ".otf"]

/-- isBinaryFile: membership of the lower-cased extension in the fixed
list; a pure function of the path, the content is never consulted. -/
def isBinaryFile (filePath : String) : Bool :=
  binaryExtensions.contains (toLowerStr (extnameStr filePath))

/-- The delimited placeholder token for a key. -/
def phKey (key : String) : String := "\x7b\x7b" ++ key ++ "\x7d\x7d"

/-- Lowercase hexadecimal digit. -/
def hexDigit (n : Nat) : Char :=
  if n < 10 then Char.ofNat (48 + n) else Char.ofNat (87 + n)

/-- JSON.stringify escaping of one character inside a string literal. -/
def jsonEscChar (c : Char) : List Char :=
  if c == '"' then ['\\', '"']
  else if c == '\\' then ['\\', '\\']
  else if c == '\x08' then ['\\', 'b']
  else if c == '\x0c' then ['\\', 'f']
  else if c == '\n' then ['\\', 'n']
  else if c == '\r' then ['\\', 'r']
  else if c == '\t' then ['\\', 't']
  else if c.toNat < 32 then
    ['\\', 'u', '0', '0', hexDigit (c.toNat / 16), hexDigit (c.toNat % 16)]
  else [c]

/-- JSON.stringify of one string: a quoted, escaped literal. -/
def jsonQuote (s : String) : String :=
  String.mk ('"' :: (s.data.map jsonEscChar).flatten ++ ['"'])

/-- JSON.stringify of an array of strings (compact form, no spacing). -/
def stringifyStrArr (ks : List String) : String :=
  "[" ++ String.intercalate "," (ks.map jsonQuote) ++ "]"

/-- JS s.slice(1, -1): drop the first and last character. -/
def jsSliceDropEnds (s : String) : String := String.mk ((s.data.drop 1).dropLast)

/-- The KEYWORDS input split on commas, each piece trimmed, empty pieces
dropped: value.split(",").map(trim).filter(identity). -/
def splitTrimFilter (value : String) : List String :=
  ((splitComma value).map trimJs).filter (fun k => k != "")

/-- The replacement string the delimited-placeholder processFile computes
for one key: KEYWORDS destined for a package.json path becomes the JSON
array serialization with the outer brackets sliced off, any other key is
replaced by its raw value. -/
def keywordsReplacementTS (filePath key value : String) : String :=
  if key == "KEYWORDS" && endsWithStr filePath "package.json" then
    jsSliceDropEnds (stringifyStrArr (splitTrimFilter value))
  else value

/-- One iteration of the delimited-placeholder replacement loop: when the
token occurs, replace all its occurrences and record a change. -/
def stepTS (filePath : String) (acc : String × Bool) (kv : String × String) : String × Bool :=
  if containsSub acc.1 (phKey kv.1) then
    (replaceAllStr acc.1 (phKey kv.1) (keywordsReplacementTS filePath kv.1 kv.2), true)
  else acc

/-- The delimited-placeholder processFile: skip binary paths, then run the
replacement loop over the inputs; the flag records whether a write happens. -/
def processFileTS (filePath content : String) (userInputs : List (String × String)) :
    String × Bool :=
  if isBinaryFile filePath then (content, false)
  else userInputs.foldl (stepTS filePath) (content, false)

/-- The content the delimited-placeholder rewrite leaves on disk. -/
def runTS (filePath content : String) (userInputs : List (String × String)) : String :=
  (processFileTS filePath content userInputs).1

/-- Lookup of one user input, empty string when absent (only read under a
truthiness guard, mirroring guarded JS member access). -/
def inputVal (inputs : List (String × String)) (k : String) : String :=
  (inputs.lookup k).getD ""

/-- JS truthiness of userInputs.k: present and nonempty. -/
def inputTruthy (inputs : List (String × String)) (k : String) : Bool :=
  match inputs.lookup k with
  | some v => v != ""
  | none => false

/-- Constructed profile URL for the author url field. -/
def githubUrl (username : String) : String := "https://github.com/" ++ username

/-- Constructed repository URL. -/
def repoUrl (username project : String) : String :=
  "https://github.com/" ++ username ++ "/" ++ project

/-- Constructed issue tracker URL. -/
def issuesUrl (username project : String) : String := repoUrl username project ++ "/issues"

/-- The generated keyword tags, the lower-cased project name among them. -/
def genKeywords (projectName : String) : List String :=
  ["typescript", "javascript", toLowerStr projectName, "utility"]

/-- Manifest step: set name when a package-name input is present. -/
def manifestNameStep (inputs : List (String × String)) (s : Json × Bool) : Json × Bool :=
  if inputTruthy inputs "PACKAGE_NAME" then
    (objSet s.1 "name" (.str (inputVal inputs "PACKAGE_NAME")), true)
  else s

/-- Manifest step: author object form updates name and url sub-fields
individually when they already exist and the inputs are present; author
string form is replaced whole by the author-name input. -/
def manifestAuthorStep (inputs : List (String × String)) (s : Json × Bool) : Json × Bool :=
  match objGet s.1 "author" with
  | some (.obj afields) =>
    let a1 : List (String × Json) × Bool :=
      if inputTruthy inputs "AUTHOR_NAME" && jsTruthyOpt (afields.lookup "name") then
        (setField "name" (.str (inputVal inputs "AUTHOR_NAME")) afields, true)
      else (afields, false)
    let a2 : List (String × Json) × Bool :=
      if inputTruthy inputs "USERNAME" && jsTruthyOpt (a1.1.lookup "url") then
        (setField "url" (.str (githubUrl (inputVal inputs "USERNAME"))) a1.1, true)
      else a1
    if a1.2 || a2.2 then (objSet s.1 "author" (.obj a2.1), true) else s
  | some (.str a) =>
    if a != "" && inputTruthy inputs "AUTHOR_NAME" then
      (objSet s.1 "author" (.str (inputVal inputs "AUTHOR_NAME")), true)
    else s
  | _ => s

/-- Manifest step shared by repository and bugs: a truthy string field is
replaced whole by the constructed URL, an object field with a truthy url
sub-field has only that sub-field overwritten. -/
def manifestUrlFieldStep (field url : String) (inputs : List (String × String))
    (s : Json × Bool) : Json × Bool :=
  if inputTruthy inputs "USERNAME" && inputTruthy inputs "PROJECT_NAME" then
    match objGet s.1 field with
    | some (.str old) =>
      if old != "" then (objSet s.1 field (.str url), true) else s
    | some (.obj rfields) =>
      if jsTruthyOpt (rfields.lookup "url") then
        (objSet s.1 field (.obj (setField "url" (.str url) rfields)), true)
      else s
    | _ => s
  else s

/-- Manifest step: homepage is replaced whole when truthy. -/
def manifestHomepageStep (inputs : List (String × String)) (s : Json × Bool) : Json × Bool :=
  if jsTruthyOpt (objGet s.1 "homepage")
      && inputTruthy inputs "USERNAME" && inputTruthy inputs "PROJECT_NAME" then
    (objSet s.1 "homepage"
      (.str (repoUrl (inputVal inputs "USERNAME") (inputVal inputs "PROJECT_NAME"))), true)
  else s

/-- Manifest step: when keywords exists, is an array, and the project-name
input is present, merge the existing entries with the generated tags through
a JS Set spread (first occurrences kept, duplicates dropped). -/
def manifestKeywordsStep (inputs : List (String × String)) (s : Json × Bool) : Json × Bool :=
  match objGet s.1 "keywords" with
  | some (.arr elems) =>
    if inputTruthy inputs "PROJECT_NAME" then
      (objSet s.1 "keywords"
        (.arr (jsDedup (elems ++ (genKeywords (inputVal inputs "PROJECT_NAME")).map .str))),
       true)
    else s
  | _ => s

/-- The manifest rewriter: the six conditional field updates of the
structured package.json pass, in source order, each checking its own
precondition and recording whether it fired. -/
def rewriteManifest (doc : Json) (inputs : List (String × String)) : Json × Bool :=
  manifestKeywordsStep inputs
    (manifestHomepageStep inputs
      (manifestUrlFieldStep "bugs"
          (issuesUrl (inputVal inputs "USERNAME") (inputVal inputs "PROJECT_NAME")) inputs
        (manifestUrlFieldStep "repository"
            (repoUrl (inputVal inputs "USERNAME") (inputVal inputs "PROJECT_NAME")) inputs
          (manifestAuthorStep inputs
            (manifestNameStep inputs (doc, false))))))

/-- Indentation for the 2-space JSON serialization. -/
def spacesStr (n : Nat) : String := String.mk (List.replicate n ' ')

/-- JSON.stringify(value, null, 2): the pretty serialization the manifest
rewriter writes back after structured changes. -/
def jsonStringifyAux (indent : Nat) (j : Json) : String :=
  match j with
  | .str s => jsonQuote s
  | .num n => toString n
  | .jbool b => if b then "true" else "false"
  | .null => "null"
  | .arr elems =>
    if elems.isEmpty then "[]"
    else
      "[\n"
        ++ String.intercalate ",\n"
            (elems.attach.map (fun e =>
              spacesStr (indent + 2) ++ jsonStringifyAux (indent + 2) e.1))
        ++ "\n" ++ spacesStr indent ++ "]"
  | .obj fields =>
    if fields.isEmpty then "\x7b\x7d"
    else
      "\x7b\n"
        ++ String.intercalate ",\n"
            (fields.attach.map (fun e =>
              spacesStr (indent + 2) ++ jsonQuote e.1.1 ++ ": "
                ++ jsonStringifyAux (indent + 2) e.1.2))
        ++ "\n" ++ spacesStr indent ++ "\x7d"
termination_by sizeOf j
decreasing_by
  · have h := List.sizeOf_lt_of_mem e.2
    simp only [Json.arr.sizeOf_spec]
    omega
  · have h := List.sizeOf_lt_of_mem e.2
    have h2 : sizeOf e.1.2 < sizeOf e.1 := by
      obtain ⟨a, b⟩ := e.1
      simp only [Prod.mk.sizeOf_spec]
      omega
    simp only [Json.obj.sizeOf_spec]
    omega

/-- JSON.stringify(value, null, 2) at top level. -/
def jsonStringify (j : Json) : String := jsonStringifyAux 0 j

/-- One iteration of the bare-key replacement loop of the current
processFile: when the literal key occurs, replace all its occurrences by the
raw value and record a change. -/
def genericStepMd (acc : String × Bool) (kv : String × String) : String × Bool :=
  if containsSub acc.1 kv.1 then (replaceAllStr acc.1 kv.1 kv.2, true) else acc

/-- The bare-key replacement pass over a fresh content, fired from a clean
change flag. -/
def genericRewriteMd (inputs : List (String × String)) (content : String) : String × Bool :=
  inputs.foldl genericStepMd (content, false)

/-- Observable outcome of processing one file: the content written (none
when no write call is executed), whether a warning was emitted, and the
boolean the function returns. -/
structure FileOutcome where
  written : Option String
  warned : Bool
  modified : Bool
  deriving DecidableEq

/-- The current processFile: skip binary paths before reading; an
unreadable file (modeled by a none read result) is caught, warned about and
skipped; a package.json basename goes through JSON.parse — on success the
manifest rewriter runs and serializes, on failure a warning is emitted and
only the generic pass applies; the bare-key replacement loop then runs over
every file, and the write call is executed only when a change was
recorded. The JSON.parse builtin is an environment parameter. -/
def processFileMd (parse : String → Option Json) (inputs : List (String × String))
    (filePath : String) (readResult : Option String) : FileOutcome :=
  if isBinaryFile filePath then ⟨none, false, false⟩
  else
    match readResult with
    | none => ⟨none, true, false⟩
    | some content =>
      let m : String × Bool × Bool :=
        if basenameStr filePath == "package.json" then
          match parse content with
          | some doc =>
            let r := rewriteManifest doc inputs
            (if r.2 then jsonStringify r.1 else content, r.2, false)
          | none => (content, false, true)
        else (content, false, false)
      let g := inputs.foldl genericStepMd (m.1, m.2.1)
      ⟨if g.2 then some g.1 else none, m.2.2, g.2⟩

/-- The read-only occurrence scan of pass one of processFiles: for every
input key, the key, the total count of its occurrences over every readable
non-binary file, and its replacement value. -/
def computeStats (fs : List (String × Option String)) (inputs : List (String × String)) :
    List (String × Nat × String) :=
  inputs.map (fun kv =>
    (kv.1,
     fs.foldl (fun acc f =>
       if isBinaryFile f.1 then acc
       else match f.2 with
         | some content => acc + countOccs content kv.1
         | none => acc) 0,
     kv.2))

/-- Chronological events of one processFiles run: a pass-one read of a
non-binary file, the summary print between the passes, a pass-two write. -/
inductive FileEvent where
  | scan (path : String)
  | summary
  | write (path : String)
  deriving DecidableEq

/-- processFiles over a file system (path, readable content) list: pass one
computes the occurrence stats from the untouched contents, the summary is
printed, then pass two rewrites each file in order. The result carries the
stats, the file system after the rewrite pass, and the event trace. -/
def processFilesMd (parse : String → Option Json) (fs : List (String × Option String))
    (inputs : List (String × String)) :
    List (String × Nat × String) × List (String × Option String) × List FileEvent :=
  let stats := computeStats fs inputs
  let scanEvents := (fs.filter (fun f => !(isBinaryFile f.1))).map (fun f => FileEvent.scan f.1)
  let outcomes := fs.map (fun f => (f.1, f.2, processFileMd parse inputs f.1 f.2))
  let newFs := outcomes.map (fun o =>
    (o.1, match o.2.2.written with
      | some c => some c
      | none => o.2.1))
  let writeEvents := outcomes.filterMap (fun o =>
    match o.2.2.written with
    | some _ => some (FileEvent.write o.1)
    | none => none)
  (stats, newFs, scanEvents ++ FileEvent.summary :: writeEvents)

/-- A placeholder definition loaded from static configuration. -/
structure Placeholder where
  key : String
  prompt : String
  defaultVal : String
  required : Bool

/-- collectInputs: the batch prompt call is modeled by the prompter's
response map (key to answered value, none for a question the user cancelled
out of). The source walks the placeholder list and yields null as soon as
any required key is unanswered; otherwise it returns the response map
itself, here the association list of answered keys in placeholder order. -/
def collectInputs (placeholders : List Placeholder) (response : String → Option String) :
    Option (List (String × String)) :=
  if placeholders.any (fun p => p.required && (response p.key).isNone) then none
  else some (placeholders.filterMap (fun p => (response p.key).map (fun v => (p.key, v))))

/-- The three ways a run leaves the input-collection checkpoint in main:
carry on, the cancellation branch (setup cancelled message), or the fatal
catch branch (error message). -/
inductive RunPath where
  | proceed
  | cancelled
  | failed
  deriving DecidableEq

/-- The branch main takes on the collectInputs result: a null result goes
to the cancellation exit, any map proceeds. -/
def afterCollect (r : Option (List (String × String))) : RunPath :=
  match r with
  | none => RunPath.cancelled
  | some _ => RunPath.proceed

/-- A configured template record. -/
structure Template where
  name : String
  description : String
  repo : String
  deriving DecidableEq

/-- The repo path derived from a positional argument: the argument itself
when it contains a slash, otherwise phucbm/ prepended. -/
def defaultRepoPath (arg : String) : String :=
  if containsSub arg "/" then arg else "phucbm/" ++ arg

/-- The configured-template match used by selectTemplate: name equals the
argument, or repo equals the argument, or repo equals the derived path. -/
def templateMatches (arg repoPath : String) (t : Template) : Bool :=
  t.name == arg || t.repo == arg || t.repo == repoPath

/-- Result of template selection: a template chosen directly from the
argument, or the interactive flow (which can also end cancelled). -/
inductive SelectOutcome where
  | direct (t : Template)
  | prompted
  deriving DecidableEq

/-- selectTemplate: a truthy positional argument picks the first matching
configured record or synthesizes one for the derived repo path; without an
argument the interactive selection runs. -/
def selectTemplate (templates : List Template) (templateArg : Option String) : SelectOutcome :=
  match templateArg with
  | some arg =>
    if arg != "" then
      let repoPath := defaultRepoPath arg
      match templates.find? (templateMatches arg repoPath) with
      | some t => SelectOutcome.direct t
      | none =>
        SelectOutcome.direct ⟨arg, "Template from " ++ repoPath, repoPath⟩
    else SelectOutcome.prompted
  | none => SelectOutcome.prompted

/-- The empty pattern occurs in every text. -/
theorem containsL_nil (text : List Char) : containsL text [] = true := by
  cases text <;> simp [containsL, startsWithL]

/-- A replacement sweep over a text with no occurrence of the pattern
returns the text unchanged, whatever the fuel. -/
theorem replFuel_no_occ (pat repl : List Char) (fuel : Nat) (text : List Char)
    (h : containsL text pat = false) : replFuel pat repl fuel text = text := by
  induction fuel generalizing text with
  | zero => rfl
  | succ n ih =>
    cases text with
    | nil => rfl
    | cons c cs =>
      simp only [containsL, Bool.or_eq_false_iff] at h
      simp only [replFuel, h.1]
      rw [if_neg (by simp), ih cs h.2]

/-- Global literal replacement is the identity when the pattern does not
occur. -/
theorem replaceAllStr_no_occ (s pat repl : String) (h : containsSub s pat = false) :
    replaceAllStr s pat repl = s := by
  have hne : pat.data ≠ [] := by
    intro hnil
    rw [containsSub, hnil, containsL_nil] at h
    simp at h
  rw [replaceAllStr, replaceAllL, if_neg (by simpa [List.isEmpty_iff] using hne),
    replFuel_no_occ _ _ _ _ h, stringMkData]

/-- The replacement loop leaves the accumulator untouched when no
placeholder token occurs in the current content. -/
theorem foldl_stepTS_no_occ (filePath : String) (inputs : List (String × String))
    (c : String) (b : Bool) (h : ∀ kv ∈ inputs, containsSub c (phKey kv.1) = false) :
    inputs.foldl (stepTS filePath) (c, b) = (c, b) := by
  induction inputs with
  | nil => rfl
  | cons kv rest ih =>
    have h0 : containsSub c (phKey kv.1) = false := h kv (List.mem_cons_self kv rest)
    simp only [List.foldl_cons, stepTS, h0, if_false, Bool.false_eq_true]
    exact ih (fun x hx => h x (List.mem_cons_of_mem kv hx))

/-- The delimited-placeholder rewrite leaves a content without placeholder
occurrences unchanged. -/
theorem runTS_no_occ (filePath c : String) (inputs : List (String × String))
    (h : ∀ kv ∈ inputs, containsSub c (phKey kv.1) = false) :
    runTS filePath c inputs = c := by
  rw [runTS, processFileTS]
  split
  · rfl
  · rw [foldl_stepTS_no_occ filePath inputs c false h]

/-- C3 counterexample: with keys AQ and X, replacement values V and the
empty string, and the file content consisting of the AQ placeholder with
the X placeholder spliced into its middle, the stated caveat holds in both
readings (no key is a substring of another key or of any replacement value,
and the same for the delimited placeholder tokens), the file is not binary,
and yet a second run of the delimited-placeholder rewrite over the first
run's output changes the content again: the first pass splices an AQ
placeholder together out of surrounding text while removing the X
placeholder, and only the second pass replaces it. -/
theorem secondRunChangesDespiteCaveat :
    (containsSub "X" "AQ" = false ∧ containsSub "AQ" "X" = false
      ∧ containsSub "V" "AQ" = false ∧ containsSub "" "AQ" = false
      ∧ containsSub "V" "X" = false ∧ containsSub "" "X" = false
      ∧ containsSub (phKey "X") (phKey "AQ") = false
      ∧ containsSub (phKey "AQ") (phKey "X") = false
      ∧ containsSub "V" (phKey "AQ") = false
      ∧ containsSub "" (phKey "X") = false)
    ∧ isBinaryFile "f.txt" = false
    ∧ runTS "f.txt" (runTS "f.txt" "\x7b\x7bA\x7b\x7bX\x7d\x7dQ\x7d\x7d" [("AQ", "V"), ("X", "")])
          [("AQ", "V"), ("X", "")]
        ≠ runTS "f.txt" "\x7b\x7bA\x7b\x7bX\x7d\x7dQ\x7d\x7d" [("AQ", "V"), ("X", "")] := by
  decide

/-- C3 amended: for every non-binary file and every UserInputs map, if the
first rewrite pass leaves no occurrence of any key's placeholder token in
its output, then running the per-file rewrite a second time over the
already-rewritten output with the same inputs produces zero further changes
to the file's content. The original caveat (one key a substring of another
key or of a replacement value) is not sufficient, because a replacement can
splice a placeholder together out of the surrounding text; the
no-residual-occurrence condition is the right one. -/
theorem secondRunNoChanges (filePath content : String) (inputs : List (String × String))
    (_hb : isBinaryFile filePath = false)
    (h : ∀ kv ∈ inputs, containsSub (runTS filePath content inputs) (phKey kv.1) = false) :
    runTS filePath (runTS filePath content inputs) inputs
      = runTS filePath content inputs :=
  runTS_no_occ filePath (runTS filePath content inputs) inputs h

/-- C3 amended, witness at a concrete input. -/
theorem secondRunNoChangesWitness :
    isBinaryFile "f.txt" = false
    ∧ (∀ kv ∈ [("NAME", "World")],
        containsSub (runTS "f.txt" "hi \x7b\x7bNAME\x7d\x7d" [("NAME", "World")])
          (phKey kv.1) = false)
    ∧ runTS "f.txt" (runTS "f.txt" "hi \x7b\x7bNAME\x7d\x7d" [("NAME", "World")])
          [("NAME", "World")]
        = runTS "f.txt" "hi \x7b\x7bNAME\x7d\x7d" [("NAME", "World")] :=
  ⟨by decide, by decide,
    secondRunNoChanges "f.txt" "hi \x7b\x7bNAME\x7d\x7d" [("NAME", "World")]
      (by decide) (by decide)⟩

/-- C5: a file whose content contains zero occurrences of every placeholder
token is never written by the delimited-placeholder rewrite (the change
flag that gates the write call stays false), and conversely the write call
is executed for a path only when some placeholder token occurred in the
content, that is when a change to the content was computed. -/
theorem writeOnlyOnComputedChange (filePath content : String)
    (inputs : List (String × String))
    (h : ∀ kv ∈ inputs, containsSub content (phKey kv.1) = false) :
    (processFileTS filePath content inputs).2 = false
    ∧ ∀ fp c : String, ∀ inp : List (String × String),
        (processFileTS fp c inp).2 = true →
        ∃ kv ∈ inp, containsSub c (phKey kv.1) = true := by
  constructor
  · rw [processFileTS]
    split
    · rfl
    · rw [foldl_stepTS_no_occ filePath inputs content false h]
  · intro fp c inp hw
    by_contra hno
    push_neg at hno
    have hall : ∀ kv ∈ inp, containsSub c (phKey kv.1) = false := by
      intro kv hkv
      cases hcb : containsSub c (phKey kv.1) with
      | false => rfl
      | true => exact absurd hcb (hno kv hkv)
    rw [processFileTS] at hw
    split at hw
    · simp at hw
    · rw [foldl_stepTS_no_occ fp inp c false hall] at hw
      simp at hw

/-- C5 witness at a concrete input. -/
theorem writeOnlyOnComputedChangeWitness :
    (∀ kv ∈ [("K", "v")], containsSub "hello" (phKey kv.1) = false)
    ∧ (processFileTS "a.txt" "hello" [("K", "v")]).2 = false :=
  ⟨by decide, (writeOnlyOnComputedChange "a.txt" "hello" [("K", "v")] (by decide)).1⟩

/-- Slicing the outer brackets off the JSON array serialization yields the
comma-separated JSON string literals. -/
theorem sliceStringify (ks : List String) :
    jsSliceDropEnds (stringifyStrArr ks)
      = String.intercalate "," (ks.map jsonQuote) := by
  rw [jsSliceDropEnds, stringifyStrArr, stringDataAppend, stringDataAppend]
  have hdrop : List.drop 1 ("[".data
        ++ ((String.intercalate "," (ks.map jsonQuote)).data ++ "]".data))
      = (String.intercalate "," (ks.map jsonQuote)).data ++ [']'] := rfl
  rw [List.append_assoc, hdrop, List.dropLast_concat, stringMkData]

/-- The statement of the claim, from its own words: the comma-separated
KEYWORDS value split on commas, pieces trimmed, empty pieces dropped, the
result serialized as comma-separated JSON string literals. -/
def specKeywordsSerial (value : String) : String :=
  String.intercalate "," ((splitTrimFilter value).map jsonQuote)

/-- C10: substituting the KEYWORDS placeholder into a path ending with
package.json uses the split-trim-filter serialization (the JSON array
serialization with its outer brackets removed); into any other non-binary
file the raw input value is substituted verbatim. -/
theorem keywordsSpecialCase (filePath value : String)
    (hb : isBinaryFile filePath = false) :
    keywordsReplacementTS filePath "KEYWORDS" value
        = (if endsWithStr filePath "package.json" then specKeywordsSerial value else value)
    ∧ ∀ content, runTS filePath content [("KEYWORDS", value)]
        = replaceAllStr content (phKey "KEYWORDS")
            (if endsWithStr filePath "package.json" then specKeywordsSerial value else value) := by
  have hrepl : keywordsReplacementTS filePath "KEYWORDS" value
      = (if endsWithStr filePath "package.json" then specKeywordsSerial value else value) := by
    rw [keywordsReplacementTS, specKeywordsSerial]
    cases he : endsWithStr filePath "package.json" with
    | true => simp [he, sliceStringify]
    | false => simp [he]
  refine ⟨hrepl, fun content => ?_⟩
  rw [runTS, processFileTS, if_neg (by simp [hb])]
  simp only [List.foldl_cons, List.foldl_nil, stepTS]
  cases hc : containsSub content (phKey "KEYWORDS") with
  | true => simp only [hc, if_true, hrepl]
  | false =>
    rw [if_neg (by simp), replaceAllStr_no_occ content _ _ hc]

/-- C10 witness at a concrete input. -/
theorem keywordsSpecialCaseWitness :
    isBinaryFile "p/package.json" = false
    ∧ keywordsReplacementTS "p/package.json" "KEYWORDS" " a , b,, c "
        = specKeywordsSerial " a , b,, c " :=
  ⟨by decide, by
    rw [(keywordsSpecialCase "p/package.json" " a , b,, c " (by decide)).1]
    decide⟩

/-- Membership in the Set spread: exactly the elements of the list that are
not already in the seen accumulator. -/
theorem mem_jsDedupAux {α : Type} [BEq α] [LawfulBEq α] (seen l : List α) (a : α) :
    a ∈ jsDedupAux seen l ↔ a ∈ l ∧ ¬ a ∈ seen := by
  induction l generalizing seen with
  | nil => simp [jsDedupAux]
  | cons x xs ih =>
    by_cases hc : x ∈ seen
    · have hcb : seen.contains x = true := by simpa using hc
      simp only [jsDedupAux, hcb, if_true, ih, List.mem_cons]
      constructor
      · exact fun h => ⟨Or.inr h.1, h.2⟩
      · rintro ⟨h1 | h1, h2⟩
        · exact absurd (h1 ▸ hc) h2
        · exact ⟨h1, h2⟩
    · have hcb : seen.contains x = false := by simpa using hc
      simp only [jsDedupAux, hcb, Bool.false_eq_true, if_false, List.mem_cons, ih,
        List.mem_cons]
      constructor
      · rintro (h | ⟨h1, h2⟩)
        · exact ⟨Or.inl h, h ▸ hc⟩
        · exact ⟨Or.inr h1, fun hs => h2 (Or.inr hs)⟩
      · rintro ⟨h1 | h1, h2⟩
        · exact Or.inl h1
        · by_cases hax : a = x
          · exact Or.inl hax
          · exact Or.inr ⟨h1, fun hs => (hs.elim hax h2)⟩

/-- The Set spread never emits an element twice. -/
theorem nodup_jsDedupAux {α : Type} [BEq α] [LawfulBEq α] (seen l : List α) :
    (jsDedupAux seen l).Nodup := by
  induction l generalizing seen with
  | nil => exact List.nodup_nil
  | cons x xs ih =>
    by_cases hc : x ∈ seen
    · have hcb : seen.contains x = true := by simpa using hc
      simpa only [jsDedupAux, hcb, if_true] using ih seen
    · have hcb : seen.contains x = false := by simpa using hc
      simp only [jsDedupAux, hcb, Bool.false_eq_true, if_false, List.nodup_cons]
      refine ⟨fun hmem => ?_, ih (x :: seen)⟩
      exact ((mem_jsDedupAux (x :: seen) xs x).mp hmem).2 (List.mem_cons_self x seen)

/-- The Set spread is a sublist of its input: relative order is kept. -/
theorem sublist_jsDedupAux {α : Type} [BEq α] (seen l : List α) :
    List.Sublist (jsDedupAux seen l) l := by
  induction l generalizing seen with
  | nil => exact List.Sublist.refl []
  | cons x xs ih =>
    rw [jsDedupAux]
    split
    · exact (ih seen).cons x
    · exact (ih (x :: seen)).cons₂ x

/-- The Set spread only consults the seen accumulator through membership. -/
theorem jsDedupAux_congr {α : Type} [BEq α] [LawfulBEq α] (s1 s2 l : List α)
    (h : ∀ a, a ∈ s1 ↔ a ∈ s2) : jsDedupAux s1 l = jsDedupAux s2 l := by
  induction l generalizing s1 s2 with
  | nil => rfl
  | cons x xs ih =>
    have hcc : s1.contains x = s2.contains x := by
      by_cases hx : x ∈ s1
      · have hx2 : x ∈ s2 := (h x).mp hx
        simp [hx, hx2]
      · have hx2 : ¬ x ∈ s2 := fun hh => hx ((h x).mpr hh)
        simp [hx, hx2]
    rw [jsDedupAux, jsDedupAux, hcc]
    split
    · exact ih s1 s2 h
    · rw [ih (x :: s1) (x :: s2) (fun a => by simp [List.mem_cons, h a])]

/-- Splitting the Set spread at a list append: the tail is deduplicated
against the head's elements together with the accumulator. -/
theorem jsDedupAux_append {α : Type} [BEq α] [LawfulBEq α] (l1 l2 seen : List α) :
    jsDedupAux seen (l1 ++ l2) = jsDedupAux seen l1 ++ jsDedupAux (l1 ++ seen) l2 := by
  induction l1 generalizing seen with
  | nil => rfl
  | cons x xs ih =>
    rw [List.cons_append, jsDedupAux, jsDedupAux]
    by_cases hc : seen.contains x = true
    · rw [if_pos hc, if_pos hc, ih seen]
      have hx : x ∈ seen := by simpa using hc
      rw [jsDedupAux_congr (xs ++ seen) (x :: xs ++ seen) l2
        (fun a => by
          simp only [List.cons_append, List.mem_cons, List.mem_append]
          constructor
          · exact fun hh => Or.inr hh
          · rintro (rfl | hh)
            · exact Or.inr hx
            · exact hh)]
    · rw [if_neg hc, if_neg hc, ih (x :: seen), List.cons_append]
      rw [jsDedupAux_congr (xs ++ x :: seen) (x :: xs ++ seen) l2
        (fun a => by
          simp only [List.cons_append, List.mem_cons, List.mem_append]
          constructor
          · rintro (hh | rfl | hh)
            · exact Or.inr (Or.inl hh)
            · exact Or.inl rfl
            · exact Or.inr (Or.inr hh)
          · rintro (rfl | hh | hh)
            · exact Or.inr (Or.inl rfl)
            · exact Or.inl hh
            · exact Or.inr (Or.inr hh))]

/-- The Set spread of an append: first-occurrence dedup of the head, then
the tail entries not already present in the head. -/
theorem jsDedup_append {α : Type} [BEq α] [LawfulBEq α] (l1 l2 : List α) :
    jsDedup (l1 ++ l2) = jsDedup l1 ++ jsDedupAux l1 l2 := by
  rw [jsDedup, jsDedupAux_append, List.append_nil]
  rfl

/-- Json.beq on two string nodes is string equality. -/
theorem beq_str_nodes (a b : String) : (Json.str a == Json.str b) = (a == b) := rfl

/-- Set membership tests on string nodes reduce to string tests. -/
theorem contains_map_str (seen : List String) (x : String) :
    (seen.map Json.str).contains (Json.str x) = seen.contains x := by
  induction seen with
  | nil => rfl
  | cons y ys ih =>
    show (Json.str x == Json.str y || (ys.map Json.str).elem (Json.str x))
        = (x == y || ys.elem x)
    rw [beq_str_nodes]
    cases x == y with
    | true => rfl
    | false => simpa using ih

/-- The Set spread over string nodes is the string Set spread, mapped. -/
theorem jsDedupAux_map_str (seen l : List String) :
    jsDedupAux (seen.map Json.str) (l.map Json.str)
      = (jsDedupAux seen l).map Json.str := by
  induction l generalizing seen with
  | nil => rfl
  | cons x xs ih =>
    show jsDedupAux (seen.map Json.str) (Json.str x :: xs.map Json.str) = _
    rw [jsDedupAux, jsDedupAux, contains_map_str]
    split
    · exact ih seen
    · show Json.str x :: jsDedupAux ((x :: seen).map Json.str) (xs.map Json.str) = _
      rw [ih (x :: seen)]
      rfl

/-- Assigning a field makes it readable back. -/
theorem lookup_setField_self (k : String) (v : Json) (fields : List (String × Json)) :
    (setField k v fields).lookup k = some v := by
  induction fields with
  | nil => simp [setField, List.lookup]
  | cons kv rest ih =>
    obtain ⟨k2, w⟩ := kv
    rw [setField]
    by_cases h : k2 == k
    · simp only [h, if_true]
      simp [List.lookup]
    · simp only [h, Bool.false_eq_true, if_false]
      have hne : (k == k2) = false := by
        simp only [Bool.not_eq_true] at h
        simp only [beq_eq_false_iff_ne] at h ⊢
        exact fun he => h he.symm
      simpa [List.lookup, hne] using ih

/-- Assigning one field leaves every other field read unchanged. -/
theorem lookup_setField_ne (k k2 : String) (v : Json) (fields : List (String × Json))
    (h : k ≠ k2) : (setField k v fields).lookup k2 = fields.lookup k2 := by
  induction fields with
  | nil =>
    have hk : (k2 == k) = false := by simpa [beq_eq_false_iff_ne] using fun he => h he.symm
    simp [setField, List.lookup, hk]
  | cons kv rest ih =>
    obtain ⟨k3, w⟩ := kv
    rw [setField]
    by_cases h3 : k3 == k
    · have h3k : k3 = k := by simpa using h3
      have hk : (k2 == k) = false := by simpa [beq_eq_false_iff_ne] using fun he => h he.symm
      simp [h3, List.lookup, h3k, hk]
    · simp only [h3, Bool.false_eq_true, if_false]
      simp [List.lookup, ih]

/-- Reading back the field just assigned on an object document. -/
theorem objGet_objSet_self (fields : List (String × Json)) (k : String) (v : Json) :
    objGet (objSet (.obj fields) k v) k = some v := by
  simp [objGet, objSet, lookup_setField_self]

/-- Assignment to one key never changes the read of another key. -/
theorem objGet_objSet_ne (j : Json) (k k2 : String) (v : Json) (h : k ≠ k2) :
    objGet (objSet j k v) k2 = objGet j k2 := by
  cases j <;> simp [objGet, objSet, lookup_setField_ne _ _ _ _ h]

/-- A successful field read forces the document to be an object. -/
theorem objGet_some_obj (j : Json) (k : String) (v : Json) (h : objGet j k = some v) :
    ∃ fields, j = .obj fields := by
  cases j <;> simp [objGet] at h
  case obj fields => exact ⟨fields, rfl⟩

/-- The name step never touches the keywords field. -/
theorem manifestNameStep_keywords (inputs : List (String × String)) (s : Json × Bool) :
    objGet (manifestNameStep inputs s).1 "keywords" = objGet s.1 "keywords" := by
  rw [manifestNameStep]
  split
  · exact objGet_objSet_ne _ _ _ _ (by decide)
  · rfl

/-- The author step never touches the keywords field. -/
theorem manifestAuthorStep_keywords (inputs : List (String × String)) (s : Json × Bool) :
    objGet (manifestAuthorStep inputs s).1 "keywords" = objGet s.1 "keywords" := by
  rw [manifestAuthorStep]
  split
  · dsimp only
    repeat' split
    all_goals first
      | exact objGet_objSet_ne _ _ _ _ (by decide)
      | rfl
  · split
    · exact objGet_objSet_ne _ _ _ _ (by decide)
    · rfl
  · rfl

/-- The repository and bugs steps never touch the keywords field. -/
theorem manifestUrlFieldStep_keywords (field url : String) (inputs : List (String × String))
    (s : Json × Bool) (hf : field ≠ "keywords") :
    objGet (manifestUrlFieldStep field url inputs s).1 "keywords" = objGet s.1 "keywords" := by
  rw [manifestUrlFieldStep]
  split
  · split
    · split
      · exact objGet_objSet_ne _ _ _ _ hf
      · rfl
    · split
      · exact objGet_objSet_ne _ _ _ _ hf
      · rfl
    · rfl
  · rfl

/-- The homepage step never touches the keywords field. -/
theorem manifestHomepageStep_keywords (inputs : List (String × String)) (s : Json × Bool) :
    objGet (manifestHomepageStep inputs s).1 "keywords" = objGet s.1 "keywords" := by
  rw [manifestHomepageStep]
  split
  · exact objGet_objSet_ne _ _ _ _ (by decide)
  · rfl

/-- The Set spread of mapped string nodes is the mapped string spread. -/
theorem jsDedup_map_str (l : List String) :
    jsDedup (l.map Json.str) = (jsDedup l).map Json.str := by
  rw [jsDedup, jsDedup]
  exact jsDedupAux_map_str [] l

/-- C2: for every manifest whose keywords field is a list of strings and
every present, non-empty project-name input, the rewritten keywords list
keeps every pre-existing entry, never holds an entry twice, preserves the
relative order of the pre-existing entries (their first-occurrence dedup is
the prefix), and appends exactly the generated tags that are not already
present, in their fixed order. -/
theorem keywordsMergePreserves (doc : Json) (inputs : List (String × String))
    (strs : List String) (pn : String)
    (hk : objGet doc "keywords" = some (.arr (strs.map Json.str)))
    (hpn : inputs.lookup "PROJECT_NAME" = some pn) (hpn0 : pn ≠ "") :
    ∃ merged : List String,
      objGet (rewriteManifest doc inputs).1 "keywords"
          = some (.arr (merged.map Json.str))
      ∧ merged = jsDedup strs ++ jsDedupAux strs (genKeywords pn)
      ∧ (∀ x ∈ strs, x ∈ merged)
      ∧ merged.Nodup
      ∧ List.Sublist (jsDedup strs) strs
      ∧ List.Sublist (jsDedupAux strs (genKeywords pn)) (genKeywords pn)
      ∧ (∀ t ∈ jsDedupAux strs (genKeywords pn), t ∈ genKeywords pn ∧ ¬ t ∈ strs)
      ∧ (∀ t, t ∈ merged ↔ (t ∈ strs ∨ t ∈ genKeywords pn)) := by
  have htr : inputTruthy inputs "PROJECT_NAME" = true := by
    rw [inputTruthy, hpn]
    simpa using hpn0
  have hval : inputVal inputs "PROJECT_NAME" = pn := by rw [inputVal, hpn]; rfl
  refine ⟨jsDedup (strs ++ genKeywords pn), ?_, jsDedup_append strs (genKeywords pn),
    ?_, nodup_jsDedupAux [] _, sublist_jsDedupAux [] strs,
    sublist_jsDedupAux strs (genKeywords pn), ?_, ?_⟩
  · rw [rewriteManifest]
    have hk5 : objGet (manifestHomepageStep inputs
        (manifestUrlFieldStep "bugs"
            (issuesUrl (inputVal inputs "USERNAME") (inputVal inputs "PROJECT_NAME")) inputs
          (manifestUrlFieldStep "repository"
              (repoUrl (inputVal inputs "USERNAME") (inputVal inputs "PROJECT_NAME")) inputs
            (manifestAuthorStep inputs
              (manifestNameStep inputs (doc, false)))))).1 "keywords"
        = some (.arr (strs.map Json.str)) := by
      rw [manifestHomepageStep_keywords, manifestUrlFieldStep_keywords _ _ _ _ (by decide),
        manifestUrlFieldStep_keywords _ _ _ _ (by decide), manifestAuthorStep_keywords,
        manifestNameStep_keywords]
      exact hk
    obtain ⟨fields, hfe⟩ := objGet_some_obj _ _ _ hk5
    rw [manifestKeywordsStep, hk5]
    simp only [htr, if_true]
    rw [hfe] at hk5 ⊢
    rw [objGet_objSet_self, hval, ← List.map_append, jsDedup_map_str]
  · intro x hx
    rw [jsDedup, mem_jsDedupAux]
    exact ⟨List.mem_append_left _ hx, by simp⟩
  · intro t ht
    exact ((mem_jsDedupAux strs (genKeywords pn) t).mp ht).imp_left id
      |> fun h => ⟨h.1, h.2⟩
  · intro t
    rw [jsDedup, mem_jsDedupAux, List.mem_append]
    simp

/-- C2 witness at a concrete manifest and input map. -/
theorem keywordsMergePreservesWitness :
    objGet (Json.obj [("keywords", Json.arr [Json.str "x"])]) "keywords"
        = some (Json.arr (["x"].map Json.str))
    ∧ List.lookup "PROJECT_NAME" [("PROJECT_NAME", "App")] = some "App"
    ∧ ("App" : String) ≠ ""
    ∧ ∃ merged : List String,
        objGet (rewriteManifest (Json.obj [("keywords", Json.arr [Json.str "x"])])
            [("PROJECT_NAME", "App")]).1 "keywords"
            = some (.arr (merged.map Json.str))
        ∧ merged = jsDedup ["x"] ++ jsDedupAux ["x"] (genKeywords "App")
        ∧ (∀ x ∈ ["x"], x ∈ merged)
        ∧ merged.Nodup
        ∧ List.Sublist (jsDedup ["x"]) ["x"]
        ∧ List.Sublist (jsDedupAux ["x"] (genKeywords "App")) (genKeywords "App")
        ∧ (∀ t ∈ jsDedupAux ["x"] (genKeywords "App"),
            t ∈ genKeywords "App" ∧ ¬ t ∈ ["x"])
        ∧ (∀ t, t ∈ merged ↔ (t ∈ ["x"] ∨ t ∈ genKeywords "App")) :=
  ⟨rfl, rfl, by decide,
    keywordsMergePreserves (Json.obj [("keywords", Json.arr [Json.str "x"])])
      [("PROJECT_NAME", "App")] ["x"] "App" rfl rfl (by decide)⟩

/-- The parsed manifest of the scenario-A test. -/
def scenarioDoc : Json :=
  .obj [("name", .str "@u/old"),
        ("author", .obj [("name", .str "Old"), ("url", .str "https://github.com/olduser")]),
        ("keywords", .arr [.str "x"])]

/-- The scenario-A inputs. -/
def scenarioInputs : List (String × String) :=
  [("PACKAGE_NAME", "@john/app"), ("USERNAME", "john"), ("PROJECT_NAME", "App")]

/-- All-strings view of a JSON element list. -/
def strsOfJson : List Json → Option (List String)
  | [] => some []
  | .str s :: rest => (strsOfJson rest).map (fun l => s :: l)
  | _ => none

/-- String field projection. -/
def getStrField (j : Json) (k : String) : Option String :=
  match objGet j k with
  | some (.str s) => some s
  | _ => none

/-- String field projection through one nested object. -/
def getStrField2 (j : Json) (k1 k2 : String) : Option String :=
  match objGet j k1 with
  | some inner => getStrField inner k2
  | none => none

/-- Keywords of a manifest as strings. -/
def keywordStrs (j : Json) : Option (List String) :=
  match objGet j "keywords" with
  | some (.arr l) => strsOfJson l
  | _ => none

/-- C1: the manifest rewriter on the parsed scenario-A document with the
scenario-A inputs yields name at packagename, author url rebuilt for the
username, and keywords exactly the five entries x, typescript, javascript,
app, utility with no duplicates. -/
theorem manifestScenarioA :
    getStrField (rewriteManifest scenarioDoc scenarioInputs).1 "name" = some "@john/app"
    ∧ getStrField2 (rewriteManifest scenarioDoc scenarioInputs).1 "author" "url"
        = some "https://github.com/john"
    ∧ keywordStrs (rewriteManifest scenarioDoc scenarioInputs).1
        = some ["x", "typescript", "javascript", "app", "utility"]
    ∧ ∃ l, keywordStrs (rewriteManifest scenarioDoc scenarioInputs).1 = some l
        ∧ l.Nodup ∧ l.length = 5 :=
  ⟨by decide, by decide, by decide,
    ⟨["x", "typescript", "javascript", "app", "utility"], by decide, by decide, by decide⟩⟩

/-- A file whose basename is package.json has the json extension and is
never classified binary. -/
theorem isBinary_of_manifest (p : String) (hp : basenameStr p = "package.json") :
    isBinaryFile p = false := by
  rw [isBinaryFile, extnameStr, hp]
  decide

/-- C6: when a package.json file's content fails to parse, the rewriter
warns, skips structured rewriting, and still applies the generic bare-key
text rewrite to the original content (writing only if that pass changed
something); and no per-file failure aborts the pipeline: the rewrite pass
produces an outcome for every file of the file set. -/
theorem parseFailureFallsBack (parse : String → Option Json)
    (inputs : List (String × String)) (filePath content : String)
    (hp : basenameStr filePath = "package.json") (hf : parse content = none) :
    (processFileMd parse inputs filePath (some content)).warned = true
    ∧ (processFileMd parse inputs filePath (some content)).written
        = (if (genericRewriteMd inputs content).2
            then some (genericRewriteMd inputs content).1 else none)
    ∧ (processFileMd parse inputs filePath (some content)).modified
        = (genericRewriteMd inputs content).2
    ∧ ∀ fs : List (String × Option String),
        ((processFilesMd parse fs inputs).2.1).length = fs.length := by
  have hb := isBinary_of_manifest filePath hp
  have hbeq : (basenameStr filePath == "package.json") = true := by
    rw [hp]
    exact beq_self_eq_true "package.json"
  have hred : processFileMd parse inputs filePath (some content)
      = ⟨if (genericRewriteMd inputs content).2
            then some (genericRewriteMd inputs content).1 else none,
         true, (genericRewriteMd inputs content).2⟩ := by
    rw [processFileMd, if_neg (by rw [hb]; exact Bool.false_ne_true)]
    simp only [hbeq, if_true, hf]
    rw [genericRewriteMd]
  rw [hred]
  exact ⟨rfl, rfl, rfl, fun fs => by simp [processFilesMd]⟩

/-- C6 witness at a concrete unparseable manifest. -/
theorem parseFailureFallsBackWitness :
    basenameStr "package.json" = "package.json"
    ∧ (fun _ : String => (none : Option Json)) "not json" = none
    ∧ (processFileMd (fun _ => none) [("A", "B")] "package.json" (some "not json")).warned
        = true :=
  ⟨rfl, rfl,
    (parseFailureFallsBack (fun _ => none) [("A", "B")] "package.json" "not json"
      rfl rfl).1⟩

/-- C7: over a directory holding logo.png and readme.txt where readme.txt
is the text PROJECT_NAME, the rewrite with the single input PROJECT_NAME
to Demo leaves logo.png byte-for-byte unchanged whatever its bytes (the
binary skip is a function of the extension alone, content is never
consulted) and leaves readme.txt containing exactly Demo. -/
theorem rewriteScenarioB (parse : String → Option Json) (bin : String) :
    (processFilesMd parse [("logo.png", some bin), ("readme.txt", some "PROJECT_NAME")]
        [("PROJECT_NAME", "Demo")]).2.1
      = [("logo.png", some bin), ("readme.txt", some "Demo")]
    ∧ ∀ c : String,
        processFileMd parse [("PROJECT_NAME", "Demo")] "logo.png" (some c)
          = ⟨none, false, false⟩ :=
  ⟨rfl, fun _ => rfl⟩

/-- C8: the occurrence-stats the pipeline reports are exactly the read-only
scan of the untouched file set (counts are natural numbers computed from
the pre-rewrite contents, never recomputed after mutation), and in the
event trace every pass-one scan read strictly precedes every pass-two
write: the scan completes over the entire file set before the first write
occurs. -/
theorem statsBeforeWrites (parse : String → Option Json)
    (fs : List (String × Option String)) (inputs : List (String × String)) :
    (processFilesMd parse fs inputs).1 = computeStats fs inputs
    ∧ ∀ i j : Nat, ∀ p q : String,
        (processFilesMd parse fs inputs).2.2[i]? = some (FileEvent.scan p) →
        (processFilesMd parse fs inputs).2.2[j]? = some (FileEvent.write q) →
        i < j := by
  refine ⟨rfl, ?_⟩
  intro i j p q hi hj
  have htr : (processFilesMd parse fs inputs).2.2
      = ((fs.filter (fun f => !(isBinaryFile f.1))).map (fun f => FileEvent.scan f.1))
        ++ FileEvent.summary ::
          ((fs.map (fun f => (f.1, f.2, processFileMd parse inputs f.1 f.2))).filterMap
            (fun o => match o.2.2.written with
              | some _ => some (FileEvent.write o.1)
              | none => none)) := rfl
  rw [htr] at hi hj
  set A := (fs.filter (fun f => !(isBinaryFile f.1))).map (fun f => FileEvent.scan f.1)
    with hAdef
  set B := (fs.map (fun f => (f.1, f.2, processFileMd parse inputs f.1 f.2))).filterMap
      (fun o => match o.2.2.written with
        | some _ => some (FileEvent.write o.1)
        | none => none) with hBdef
  have hAshape : ∀ e ∈ A, ∃ r, e = FileEvent.scan r := by
    intro e he
    rw [hAdef, List.mem_map] at he
    obtain ⟨f, _, hf⟩ := he
    exact ⟨f.1, hf.symm⟩
  have hBshape : ∀ e ∈ B, ∃ r, e = FileEvent.write r := by
    intro e he
    rw [hBdef, List.mem_filterMap] at he
    obtain ⟨o, _, ho⟩ := he
    rcases hw : o.2.2.written with _ | c
    · rw [hw] at ho
      exact absurd ho (by simp)
    · rw [hw] at ho
      simp only [Option.some.injEq] at ho
      exact ⟨o.1, ho.symm⟩
  have hi_lt : i < A.length := by
    by_contra hge
    push_neg at hge
    rw [List.getElem?_append, if_neg (Nat.not_lt_of_le hge)] at hi
    rcases hk : i - A.length with _ | n
    · rw [hk] at hi
      simp at hi
    · rw [hk] at hi
      simp only [List.getElem?_cons_succ] at hi
      obtain ⟨r, hr⟩ := hBshape _ (List.getElem?_mem hi)
      exact FileEvent.noConfusion hr
  have hj_gt : A.length < j := by
    rcases Nat.lt_trichotomy j A.length with h | h | h
    · rw [List.getElem?_append, if_pos h] at hj
      obtain ⟨r, hr⟩ := hAshape _ (List.getElem?_mem hj)
      exact FileEvent.noConfusion hr
    · rw [List.getElem?_append, h, if_neg (Nat.lt_irrefl _)] at hj
      simp at hj
    · exact h
  exact Nat.lt_trans hi_lt hj_gt

/-- C8 witness on a one-file file set. -/
theorem statsBeforeWritesWitness :
    (processFilesMd (fun _ => none) [("a.txt", some "K")] [("K", "v")]).2.2[0]?
        = some (FileEvent.scan "a.txt")
    ∧ (processFilesMd (fun _ => none) [("a.txt", some "K")] [("K", "v")]).2.2[2]?
        = some (FileEvent.write "a.txt")
    ∧ (0 : Nat) < 2 :=
  ⟨by decide, by decide,
    (statsBeforeWrites (fun _ => none) [("a.txt", some "K")] [("K", "v")]).2
      0 2 "a.txt" "a.txt" (by decide) (by decide)⟩

/-- Looking up an answered placeholder key in the collected map returns the
prompter's answer for that key. -/
theorem lookup_collected (ps : List Placeholder) (resp : String → Option String)
    (p : Placeholder) (v : String) (hp : p ∈ ps) (hv : resp p.key = some v) :
    (ps.filterMap (fun q => (resp q.key).map (fun w => (q.key, w)))).lookup p.key
      = some v := by
  induction ps with
  | nil => exact absurd hp (List.not_mem_nil p)
  | cons q qs ih =>
    rcases hq : resp q.key with _ | w
    · have hcons : ((q :: qs).filterMap (fun r => (resp r.key).map (fun w2 => (r.key, w2))))
          = qs.filterMap (fun r => (resp r.key).map (fun w2 => (r.key, w2))) := by
        rw [List.filterMap_cons, hq]
        rfl
      rw [hcons]
      rcases List.mem_cons.mp hp with rfl | hmem
      · rw [hq] at hv
        exact Option.noConfusion hv
      · exact ih hmem
    · have hcons : ((q :: qs).filterMap (fun r => (resp r.key).map (fun w2 => (r.key, w2))))
          = (q.key, w) :: qs.filterMap (fun r => (resp r.key).map (fun w2 => (r.key, w2))) := by
        rw [List.filterMap_cons, hq]
        rfl
      rw [hcons]
      by_cases hkk : (p.key == q.key) = true
      · have hke : p.key = q.key := by simpa using hkk
        rw [hke, hq] at hv
        simpa [List.lookup, hkk] using hv
      · have hkf : (p.key == q.key) = false := by simpa using hkk
        have htail : ((q.key, w)
              :: qs.filterMap (fun r => (resp r.key).map (fun w2 => (r.key, w2)))).lookup p.key
            = (qs.filterMap (fun r => (resp r.key).map (fun w2 => (r.key, w2)))).lookup p.key := by
          simp [List.lookup, hkf]
        rw [htail]
        rcases List.mem_cons.mp hp with rfl | hmem
        · exact absurd (by simp) hkk
        · exact ih hmem

/-- C4: under the prompter's validation contract (a required key is only
ever answered by a value with nonempty trim), cancellation with any
required placeholder unanswered makes input collection yield no result at
all (never a partial map) and sends main down the cancellation exit branch,
which is distinct from the fatal-error branch; and any returned map has
every required key present with a nonempty trimmed value. -/
theorem collectCancellation (ps : List Placeholder) (resp : String → Option String)
    (hval : ∀ p ∈ ps, p.required = true → ∀ v, resp p.key = some v → trimJs v ≠ "") :
    ((∃ p ∈ ps, p.required = true ∧ resp p.key = none) →
        collectInputs ps resp = none
        ∧ afterCollect (collectInputs ps resp) = RunPath.cancelled)
    ∧ RunPath.cancelled ≠ RunPath.failed
    ∧ ∀ m, collectInputs ps resp = some m →
        ∀ p ∈ ps, p.required = true →
          ∃ v, m.lookup p.key = some v ∧ trimJs v ≠ "" := by
  refine ⟨?_, by decide, ?_⟩
  · rintro ⟨p, hp, hreq, hnone⟩
    have hany : ps.any (fun p => p.required && (resp p.key).isNone) = true := by
      rw [List.any_eq_true]
      exact ⟨p, hp, by rw [hreq, hnone]; rfl⟩
    rw [collectInputs, if_pos hany]
    exact ⟨rfl, rfl⟩
  · intro m hm p hp hreq
    rw [collectInputs] at hm
    by_cases hany : ps.any (fun p => p.required && (resp p.key).isNone) = true
    · rw [if_pos hany] at hm
      exact Option.noConfusion hm
    · rw [if_neg hany] at hm
      have hm2 := Option.some.inj hm
      rcases hr : resp p.key with _ | v
      · exact absurd (List.any_eq_true.mpr ⟨p, hp, by rw [hreq, hr]; rfl⟩) hany
      · exact ⟨v, hm2 ▸ lookup_collected ps resp p v hp hr, hval p hp hreq v hr⟩

/-- C4 witness: one required placeholder, a prompter that cancels. -/
theorem collectCancellationWitness :
    (∀ p ∈ [(⟨"PROJECT_NAME", "Project name:", "my-project", true⟩ : Placeholder)],
        p.required = true →
        ∀ v, (fun _ : String => (none : Option String)) p.key = some v → trimJs v ≠ "")
    ∧ (∃ p ∈ [(⟨"PROJECT_NAME", "Project name:", "my-project", true⟩ : Placeholder)],
        p.required = true ∧ (fun _ : String => (none : Option String)) p.key = none)
    ∧ collectInputs [⟨"PROJECT_NAME", "Project name:", "my-project", true⟩]
        (fun _ => none) = none
    ∧ afterCollect (collectInputs [⟨"PROJECT_NAME", "Project name:", "my-project", true⟩]
        (fun _ => none)) = RunPath.cancelled := by
  have hval : ∀ p ∈ [(⟨"PROJECT_NAME", "Project name:", "my-project", true⟩ : Placeholder)],
      p.required = true →
      ∀ v, (fun _ : String => (none : Option String)) p.key = some v → trimJs v ≠ "" :=
    fun p _ _ v hv => Option.noConfusion hv
  have hex : ∃ p ∈ [(⟨"PROJECT_NAME", "Project name:", "my-project", true⟩ : Placeholder)],
      p.required = true ∧ (fun _ : String => (none : Option String)) p.key = none :=
    ⟨⟨"PROJECT_NAME", "Project name:", "my-project", true⟩, List.mem_cons_self _ _, rfl, rfl⟩
  have hres := (collectCancellation [⟨"PROJECT_NAME", "Project name:", "my-project", true⟩]
    (fun _ => none) hval).1 hex
  exact ⟨hval, hex, hres.1, hres.2⟩

/-- C9 counterexample: the configured list holding the single record with
name n and repo phucbm/app, and the argument app: the argument equals
neither the record's name nor its repo, so the claim says a synthesized
template is returned, yet selectTemplate returns the configured record
because the derived repo path also matches. -/
theorem selectTemplateClaimFails :
    selectTemplate [⟨"n", "d", "phucbm/app"⟩] (some "app")
        = SelectOutcome.direct ⟨"n", "d", "phucbm/app"⟩
    ∧ ("app" : String) ≠ "n"
    ∧ ("app" : String) ≠ "phucbm/app"
    ∧ SelectOutcome.direct (⟨"n", "d", "phucbm/app"⟩ : Template)
        ≠ SelectOutcome.direct ⟨"app", "Template from phucbm/app", "phucbm/app"⟩ := by
  decide

/-- C9 amended: for every non-empty positional template argument, template
selection returns a template directly, never entering the interactive flow
and never returning its cancellation result; it returns the first
configured record whose name or repo equals the argument or whose repo
equals the derived repo path (phucbm/ prepended to a slash-free argument,
the argument itself otherwise), and only when no configured record matches
does it synthesize a template for the derived repo path. -/
theorem selectTemplateDirect (templates : List Template) (arg : String) (h : arg ≠ "") :
    selectTemplate templates (some arg) ≠ SelectOutcome.prompted
    ∧ ∃ t, selectTemplate templates (some arg) = SelectOutcome.direct t
        ∧ (templates.find? (templateMatches arg (defaultRepoPath arg)) = some t
           ∨ (templates.find? (templateMatches arg (defaultRepoPath arg)) = none
              ∧ t = ⟨arg, "Template from " ++ defaultRepoPath arg, defaultRepoPath arg⟩)) := by
  have hbne : (arg != "") = true := by simpa using h
  have hred : selectTemplate templates (some arg)
      = match templates.find? (templateMatches arg (defaultRepoPath arg)) with
        | some t => SelectOutcome.direct t
        | none => SelectOutcome.direct
            ⟨arg, "Template from " ++ defaultRepoPath arg, defaultRepoPath arg⟩ := by
    rw [selectTemplate, if_pos hbne]
  rcases hfind : templates.find? (templateMatches arg (defaultRepoPath arg)) with _ | t
  · rw [hfind] at hred
    exact ⟨by rw [hred]; exact fun he => SelectOutcome.noConfusion he,
      ⟨_, hred, Or.inr ⟨rfl, rfl⟩⟩⟩
  · rw [hfind] at hred
    exact ⟨by rw [hred]; exact fun he => SelectOutcome.noConfusion he,
      ⟨t, hred, Or.inl rfl⟩⟩

/-- C9 amended, witness at a concrete argument. -/
theorem selectTemplateDirectWitness :
    ("x" : String) ≠ ""
    ∧ selectTemplate [] (some "x") ≠ SelectOutcome.prompted
    ∧ ∃ t, selectTemplate [] (some "x") = SelectOutcome.direct t
        ∧ (List.find? (templateMatches "x" (defaultRepoPath "x")) [] = some t
           ∨ (List.find? (templateMatches "x" (defaultRepoPath "x")) [] = none
              ∧ t = ⟨"x", "Template from " ++ defaultRepoPath "x", defaultRepoPath "x"⟩)) :=
  ⟨by decide, (selectTemplateDirect [] "x" (by decide)).1,
    (selectTemplateDirect [] "x" (by decide)).2⟩
